import Mathlib

/-!
Shallow embedding of the membership-inference scorer and the projection
plots of `src/synthetic_data/metrics/plots.py`.

The scorer (`AUCPlot`, lines 79-150) labels every train row with -1 and
every test row with +1, concatenates the two tables, shuffles rows and
labels in lock-step with `sklearn.utils.shuffle` (which draws from the
process-global numpy generator), computes for every reference row the
Euclidean distance to its nearest neighbour among the synthetic rows
(`NearestNeighbors(1).fit(s).kneighbors(t)`), and feeds those distances as
classification scores to `sklearn.metrics.roc_curve` /
`sklearn.metrics.auc`.

Feature values are rationals.  A Euclidean distance enters the pipeline
only through order comparisons and equality tests (the ROC threshold
sweep), so a distance is represented by its square (`EuclDist.sq`): the
map `x ↦ Real.sqrt x` is a strictly monotone injection on the
nonnegatives, hence the square is a faithful representation of the
distance for every comparison the program performs.
-/

/-- A feature row: the numeric record of one CSV line. -/
abbrev Row := List ℚ

/-- A table cell that may be missing: `none` models the NaN cells that
pandas column alignment introduces when two concatenated frames disagree
on their columns. -/
abbrev OCell := Option ℚ

/-- A Euclidean distance, represented by its square (a rational).  The
value denoted is `Real.sqrt sq`; the program only ever compares distances,
so the representation is faithful. -/
structure EuclDist where
  sq : ℚ
  deriving DecidableEq

/-- Order on Euclidean distances: `√a ≤ √b ↔ a ≤ b` on nonnegatives. -/
def edLE (a b : EuclDist) : Prop := a.sq ≤ b.sq

instance : DecidableRel edLE := fun a b => inferInstanceAs (Decidable (a.sq ≤ b.sq))

/-- Descending order on distances, used to sweep ROC thresholds from the
largest distinct score downwards exactly as `sklearn.metrics.roc_curve`
does. -/
def descRel (a b : EuclDist) : Prop := edLE b a

instance : DecidableRel descRel := fun a b => inferInstanceAs (Decidable (b.sq ≤ a.sq))

instance : IsTrans EuclDist descRel :=
  ⟨fun _ _ _ h1 h2 => le_trans h2 h1⟩

instance : IsTotal EuclDist descRel :=
  ⟨fun a b => (le_total b.sq a.sq).imp id id⟩

instance : IsAntisymm EuclDist descRel := by
  constructor
  intro a b h1 h2
  cases a
  cases b
  simp only [descRel, edLE] at h1 h2
  exact congrArg EuclDist.mk (le_antisymm h2 h1)

/-- The smaller of two distances. -/
def edMin (a b : EuclDist) : EuclDist := if a.sq ≤ b.sq then a else b

/-- Squared Euclidean distance between two feature rows (the metric used
by `sklearn.neighbors.NearestNeighbors`). -/
def sqDist (a b : Row) : ℚ := ((a.zip b).map (fun p => (p.1 - p.2) ^ 2)).sum

/-- The Euclidean distance between two rows, represented by its square. -/
def euclDist (a b : Row) : EuclDist := ⟨sqDist a b⟩

/-- Distance from query row `q` to its single nearest neighbour in the
corpus `s`.  (`NearestNeighbors.fit` rejects an empty corpus; the `[]`
branch is unreachable in the validated pipeline.) -/
def nnDist (s : List Row) (q : Row) : EuclDist :=
  match s with
  | [] => ⟨0⟩
  | r :: rs => rs.foldl (fun acc r2 => edMin acc (euclDist q r2)) (euclDist q r)

/-- `AUCPlot.__nearest_neighbors` (lines 139-150): fit a 1-nearest-neighbour
index on `s` and return, for each row of `t` in order, the distance to its
nearest neighbour in `s`. -/
def nearestNeighbors (t s : List Row) : List EuclDist := t.map (nnDist s)

/-- The decision thresholds of the ROC sweep: the distinct score values in
descending order (`sklearn.metrics.roc_curve` sorts scores descending and
keeps one threshold per distinct value). -/
def rocThresholds (s : List EuclDist) : List EuclDist :=
  List.insertionSort descRel s.dedup

/-- Number of positive labels (`pos_label = 1`, the test rows). -/
def posTotal (y : List Int) : ℕ := y.countP (fun a => a == 1)

/-- Number of non-positive labels (sklearn counts everything that is not
the positive label as negative; in this pipeline those are exactly the
train rows, labelled -1). -/
def negTotal (y : List Int) : ℕ := y.countP (fun a => !(a == 1))

/-- True positives at threshold `t`: labelled pairs predicted positive
(score at least `t`) whose label is the positive label. -/
def tpAt (pairs : List (Int × EuclDist)) (t : EuclDist) : ℕ :=
  pairs.countP (fun p => p.1 == 1 && decide (edLE t p.2))

/-- False positives at threshold `t`: non-positive pairs with score at
least `t`. -/
def fpAt (pairs : List (Int × EuclDist)) (t : EuclDist) : ℕ :=
  pairs.countP (fun p => !(p.1 == 1) && decide (edLE t p.2))

/-- Model of `sklearn.metrics.roc_curve labels scores` (pos_label 1):
sweep the distinct scores as thresholds from above, count true/false
positives at each, normalise by the class totals, and prepend the (0,0)
origin point exactly as roc_curve does.  `drop_intermediate` (which only
removes interior collinear points and changes no property stated in this
file) is not modelled.  Division by a zero class total produces 0 here
where numpy produces NaN; no theorem below evaluates the curve in that
degenerate case. -/
def rocCurve (y : List Int) (s : List EuclDist) : List ℚ × List ℚ :=
  let pairs := y.zip s
  let ts := rocThresholds s
  ((0 : ℚ) :: ts.map (fun t => (fpAt pairs t : ℚ) / (negTotal y : ℚ)),
   (0 : ℚ) :: ts.map (fun t => (tpAt pairs t : ℚ) / (posTotal y : ℚ)))

/-- Trapezoidal integration (`numpy.trapz`) of `y` against `x`. -/
def trapArea : List ℚ → List ℚ → ℚ
  | x1 :: x2 :: xs, y1 :: y2 :: ys =>
    (x2 - x1) * (y1 + y2) / 2 + trapArea (x2 :: xs) (y2 :: ys)
  | _, _ => 0

/-- Model of `sklearn.metrics.auc fpr tpr`: the trapezoidal area under the
curve.  (sklearn negates the area when `x` is decreasing; the fpr sequence
produced by `roc_curve` is non-decreasing — proved below — so the
direction is always +1 in this pipeline.) -/
def aucOf (x y : List ℚ) : ℚ := trapArea x y

/-- The (fpr, tpr, auc) triple computed from labels and scores; the tail
of `AUCPlot.__compute_auc` (lines 133-137). -/
def scoreOutput (y : List Int) (s : List EuclDist) : List ℚ × List ℚ × ℚ :=
  let rc := rocCurve y s
  (rc.1, rc.2, aucOf rc.1 rc.2)

/-- A pandas DataFrame as read from CSV: named columns and rational rows. -/
structure Table where
  cols : List String
  rows : List Row

/-- Reindex one row to a new column list, as pandas does when aligning
frames: a cell is kept when its column name exists in the source frame and
becomes NaN (`none`) otherwise. -/
def reindex (oldCols newCols : List String) (r : Row) : List OCell :=
  newCols.map (fun c => (oldCols.indexOf? c).bind (fun i => r.get? i))

/-- The union of two column lists in sorted order: the column index that
`pd.concat` produces for frames whose columns differ. -/
def unionCols (c1 c2 : List String) : List String :=
  List.insertionSort (fun a b => a ≤ b) (c1 ++ c2.filter (fun c => !(c1.contains c)))

/-- `pd.concat([train_set, test_set], axis=0)` (line 120): when the two
frames have identical columns the rows are appended unchanged; otherwise
both are reindexed to the union of the columns, introducing NaN cells. -/
def concatTables (t1 t2 : Table) : List String × List (List OCell) :=
  if t1.cols = t2.cols then
    (t1.cols, (t1.rows ++ t2.rows).map (fun r => r.map some))
  else
    let nc := unionCols t1.cols t2.cols
    (nc, t1.rows.map (reindex t1.cols nc) ++ t2.rows.map (reindex t2.cols nc))

/-- `AUCPlot.__create_shuffled_data` (lines 106-127): label every train
row -1 and every test row +1 (lines 113-117), concatenate the tables and
attach the label column (lines 119-121), apply the random row permutation
`π` to rows and labels in lock-step (line 124, `sklearn.utils.shuffle`),
and split the label column off again (line 125).  Returns the column
list, the shuffled data rows and the shuffled labels. -/
def createShuffledData (train test : Table) (π : List ℕ) :
    List String × List (List OCell) × List Int :=
  let labels : List Int :=
    List.replicate train.rows.length (-1) ++ List.replicate test.rows.length 1
  let catd := concatTables train test
  let pairs := catd.2.zip labels
  let shuffled := π.map (fun i => pairs.getD i ([], 0))
  (catd.1, shuffled.map Prod.fst, shuffled.map Prod.snd)

/-- `AUCPlot.__compute_auc` (lines 129-137) together with the input
validation its sklearn calls perform: `NearestNeighbors.fit` rejects an
empty corpus, and `kneighbors` rejects an empty query set, NaN cells
(produced only by a column mismatch between train and test) and a
dimension mismatch between the query frame and the fitted corpus.  There
is no schema- or emptiness-check of its own anywhere in the source; a
`none` result models an exception raised inside the sklearn library
calls. -/
def computeAuc (synth : Table) (cols : List String) (data : List (List OCell))
    (labels : List Int) : Option (List ℚ × List ℚ × ℚ) :=
  if synth.rows.isEmpty then none
  else if data.isEmpty then none
  else if data.any (fun r => r.any (fun c => c.isNone)) then none
  else if cols.length = synth.cols.length then
    some (scoreOutput labels
      (nearestNeighbors (data.map (fun r => r.map (fun c => c.getD 0))) synth.rows))
  else none

/-- The whole scoring pipeline of `AUCPlot.__init__` (lines 102-103):
shuffle the labelled reference table with the row permutation `π`, then
compute (fpr, tpr, auc) against the synthetic table. -/
def scoreTables (train test synth : Table) (π : List ℕ) :
    Option (List ℚ × List ℚ × ℚ) :=
  let csd := createShuffledData train test π
  computeAuc synth csd.1 csd.2.1 csd.2.2

/-- The labelled reference records before shuffling: train rows carry -1,
test rows carry +1. -/
def refPairs (train test : Table) : List (Row × Int) :=
  train.rows.map (fun r => (r, (-1 : Int))) ++ test.rows.map (fun r => (r, (1 : Int)))

/-- The labelled reference records after applying the row permutation. -/
def shuffledPairs (train test : Table) (π : List ℕ) : List (Row × Int) :=
  π.map (fun i => (refPairs train test).getD i ([], 0))

/-- The shuffled reference rows (label column dropped). -/
def refData (train test : Table) (π : List ℕ) : List Row :=
  (shuffledPairs train test π).map Prod.fst

/-- The shuffled labels, in lock-step with `refData`. -/
def refLabels (train test : Table) (π : List ℕ) : List Int :=
  (shuffledPairs train test π).map Prod.snd

/-- Every row of the table has exactly one cell per column. -/
def Rectangular (t : Table) : Prop := ∀ r ∈ t.rows, r.length = t.cols.length

instance (t : Table) : Decidable (Rectangular t) :=
  inferInstanceAs (Decidable (∀ r ∈ t.rows, r.length = t.cols.length))

/-- A valid scorer input in the sense of the specification: the three
tables share one schema and none of them is empty. -/
def ValidInput (train test synth : Table) : Prop :=
  train.cols = test.cols ∧ synth.cols = train.cols ∧
  train.rows ≠ [] ∧ test.rows ≠ [] ∧ synth.rows ≠ [] ∧
  Rectangular train ∧ Rectangular test ∧ Rectangular synth

instance (train test synth : Table) : Decidable (ValidInput train test synth) := by
  unfold ValidInput
  exact inferInstance

/-- `π` is a permutation of the row indices `0, …, n-1`. -/
def IsPermOf (π : List ℕ) (n : ℕ) : Prop := List.Perm π (List.range n)

instance (π : List ℕ) (n : ℕ) : Decidable (IsPermOf π n) := by
  unfold IsPermOf
  exact inferInstance

/-- One step of the process-global numpy pseudo-random generator, modelled
as a 64-bit linear-congruential step.  The only facts used about the
generator are that it is a pure step function on an explicit state — which
numpy's Mersenne Twister also is — so every draw is determined by the
state at entry. -/
def rngStep (σ : ℕ) : ℕ := (6364136223846793005 * σ + 1442695040888963407) % (2 ^ 64)

/-- `np.random.seed(seed)`: installs a generator state that is a pure
function of the seed (numpy reduces the seed modulo 2^32 before seeding
the state vector). -/
def npSeed (seed : ℕ) : ℕ := seed % (2 ^ 32)

/-- Swap the entries at positions `i` and `j`. -/
def swapIdx (l : List ℕ) (i j : ℕ) : List ℕ :=
  (l.set i (l.getD j 0)).set j (l.getD i 0)

/-- The Fisher-Yates loop of numpy's `shuffle`: for `i` from `n-1` down to
`1`, draw `j` uniformly in `0..i` and swap positions `i` and `j`.  Returns
the permuted index list together with the generator state after the
draws. -/
def fyAux : List ℕ → ℕ → ℕ → List ℕ × ℕ
  | arr, σ, 0 => (arr, σ)
  | arr, σ, i + 1 =>
    let σ2 := rngStep σ
    fyAux (swapIdx arr (i + 1) (σ2 % (i + 2))) σ2 i

/-- The row permutation that `sklearn.utils.shuffle` (line 124) applies
to a table of `n` rows when the global generator is in state `σ`, together
with the state left behind. -/
def permOfState (σ : ℕ) (n : ℕ) : List ℕ × ℕ :=
  match n with
  | 0 => ([], σ)
  | m + 1 => fyAux (List.range (m + 1)) σ m

/-- One full invocation of the scorer as the process executes it: the
global generator state `σ` is read to shuffle the reference table and the
advanced state is left behind for the next caller.  Returns the numeric
output paired with the state after the call. -/
def scoreSeeded (train test synth : Table) (σ : ℕ) :
    Option (List ℚ × List ℚ × ℚ) × ℕ :=
  let p := permOfState σ (train.rows.length + test.rows.length)
  (scoreTables train test synth p.1, p.2)

/-- One projection-library call made by `ComponentPlots`: dataset 0 is the
real table, dataset `i+1` is `synthetic_datas[i]`. -/
inductive ProjCall where
  | fit (dataset : ℕ)
  | transform (dataset : ℕ)
  deriving DecidableEq

/-- Whether a projection call fits (re-estimates) the projection basis. -/
def ProjCall.isFit : ProjCall → Bool
  | .fit _ => true
  | .transform _ => false

/-- The titling loop `for i, a in enumerate(axes): a.set_title(names[i])`
(lines 311-315 and 388-392) over the given axis indices: `none` models the
IndexError raised when `names` has no entry for some axis. -/
def titleAxes (names : List String) : List ℕ → Option (List String)
  | [] => some []
  | i :: rest =>
    match names.get? i, titleAxes names rest with
    | some t, some ts => some (t :: ts)
    | _, _ => none

/-- Titles for the fixed 2x3 grid of axes that `combined_pca` and
`combined_tsne` always create (lines 294-295 and 371-372): every one of
the 6 axes is titled from `names`, regardless of how many synthetic
datasets were supplied. -/
def setTitles (names : List String) : Option (List String) :=
  titleAxes names (List.range 6)

/-- `ComponentPlots.combined_pca` (lines 259-333), abstracted to what the
claims concern: the sequence of projection-library calls it makes
(`pca_orig.fit_transform(real_data)` once — lines 297-298 — then
`pca_orig.transform(s)` for each synthetic dataset — lines 306-309) and
the outcome of the axis-titling loop (lines 311-315), which runs after all
projection calls. -/
def combinedPca (numSynth : ℕ) (names : List String) :
    List ProjCall × Option (List String) :=
  (ProjCall.fit 0 :: ProjCall.transform 0 ::
     (List.range numSynth).map (fun i => ProjCall.transform (i + 1)),
   setTitles names)

/-- `ComponentPlots.combined_tsne` (lines 335-410): it calls
`tsne_orig.fit_transform(real_data)` (lines 374-375) and then
`tsne_orig.fit_transform(s)` — a fresh fit — for each synthetic dataset
(lines 383-386), before the axis-titling loop (lines 388-392). -/
def combinedTsne (numSynth : ℕ) (names : List String) :
    List ProjCall × Option (List String) :=
  (ProjCall.fit 0 :: ProjCall.transform 0 ::
     (List.range numSynth).flatMap (fun i => [ProjCall.fit (i + 1), ProjCall.transform (i + 1)]),
   setTitles names)

/-! ### Generic list lemmas -/

theorem IsPermOf.toPerm {π : List ℕ} {n : ℕ} (h : IsPermOf π n) :
    List.Perm π (List.range n) := h

theorem isPermOf_length {π : List ℕ} {n : ℕ} (h : IsPermOf π n) : π.length = n := by
  simpa using h.toPerm.length_eq

theorem mem_lt_of_isPermOf {π : List ℕ} {n : ℕ} (h : IsPermOf π n) {i : ℕ}
    (hi : i ∈ π) : i < n := by
  simpa using h.toPerm.mem_iff.mp hi

theorem zip_map_replicate {α β γ : Type _} (l : List α) (f : α → β) (c : γ) :
    (l.map f).zip (List.replicate l.length c) = l.map (fun a => (f a, c)) := by
  induction l with
  | nil => rfl
  | cons a t ih => simp [List.replicate_succ, ih]

theorem map_getD_range {α : Type _} (l : List α) (d : α) :
    (List.range l.length).map (fun i => l.getD i d) = l := by
  apply List.ext_getElem
  · simp
  · intro i h1 h2
    simp [List.getD_eq_getElem?_getD, List.getElem?_eq_getElem, h2]

theorem perm_map_getD {α : Type _} (l : List α) (d : α) (π : List ℕ)
    (h : IsPermOf π l.length) :
    List.Perm (π.map (fun i => l.getD i d)) l := by
  have h2 := h.toPerm.map (fun i => l.getD i d)
  rwa [map_getD_range] at h2

theorem getD_eq_getElem {α : Type _} (l : List α) (d : α) {i : ℕ} (h : i < l.length) :
    l.getD i d = l[i] := by
  simp [List.getD_eq_getElem?_getD, List.getElem?_eq_getElem, h]

/-! ### The Fisher-Yates shuffle produces a permutation -/

theorem swapIdx_perm (l : List ℕ) (i j : ℕ) (hi : i < l.length) (hj : j < l.length) :
    List.Perm (swapIdx l i j) l := by
  rw [List.perm_iff_count]
  intro x
  unfold swapIdx
  have hi2 : i < (l.set i (l.getD j 0)).length := by simpa using hi
  have hj2 : j < (l.set i (l.getD j 0)).length := by simpa using hj
  have e1 := List.count_set (l.getD i 0) x (l.set i (l.getD j 0)) j hj2
  have e2 := List.count_set (l.getD j 0) x l i hi
  have hgi : l.getD i 0 = l[i] := getD_eq_getElem l 0 hi
  have hgj : l.getD j 0 = l[j] := getD_eq_getElem l 0 hj
  have hcount_i : (if (l[i] == x) = true then 1 else 0) ≤ List.count x l := by
    by_cases hx : (l[i] == x) = true
    · have hxx : l[i] = x := by simpa using hx
      simp only [hx, if_true]
      exact List.count_pos_iff.mpr (hxx ▸ List.getElem_mem hi)
    · simp [hx]
  have hcount_j : (if (l[j] == x) = true then 1 else 0) ≤ List.count x l := by
    by_cases hx : (l[j] == x) = true
    · have hxx : l[j] = x := by simpa using hx
      simp only [hx, if_true]
      exact List.count_pos_iff.mpr (hxx ▸ List.getElem_mem hj)
    · simp [hx]
  by_cases hij : i = j
  · subst hij
    have h3 : (l.set i (l.getD i 0))[i]? = some (l.getD i 0) :=
      List.getElem?_set_self (by simpa using hi)
    have h4 : (l.set i (l.getD i 0))[i]? = some ((l.set i (l.getD i 0))[i]) :=
      List.getElem?_eq_getElem hi2
    have hv : (l.set i (l.getD i 0))[i] = l[i] := by
      rw [h4] at h3
      rw [← hgi]
      exact ((Option.some.injEq _ _).mp h3.symm).symm
    rw [e1, e2, hv, hgi]
    by_cases hx : (l[i] == x) = true <;>
      simp only [hx, if_true, if_false] at hcount_i ⊢ <;> omega
  · have h3 : (l.set i (l.getD j 0))[j]? = l[j]? := List.getElem?_set_ne hij
    have h4 : (l.set i (l.getD j 0))[j]? = some ((l.set i (l.getD j 0))[j]) :=
      List.getElem?_eq_getElem hj2
    have h5 : l[j]? = some l[j] := List.getElem?_eq_getElem hj
    have hv : (l.set i (l.getD j 0))[j] = l[j] := by
      rw [h4, h5] at h3
      exact (Option.some.injEq _ _).mp h3
    rw [e1, e2, hv, hgi, hgj]
    by_cases hx1 : (l[i] == x) = true <;> by_cases hx2 : (l[j] == x) = true <;>
      simp only [hx1, hx2, if_true, if_false] at hcount_i hcount_j ⊢ <;> omega

theorem fyAux_perm : ∀ (i : ℕ) (arr : List ℕ) (σ : ℕ), i < arr.length →
    List.Perm (fyAux arr σ i).1 arr := by
  intro i
  induction i with
  | zero => intro arr σ _; exact List.Perm.refl arr
  | succ m ih =>
    intro arr σ h
    have hswap : List.Perm (swapIdx arr (m + 1) (rngStep σ % (m + 2))) arr :=
      swapIdx_perm arr (m + 1) (rngStep σ % (m + 2)) h
        (lt_of_lt_of_le (Nat.mod_lt _ (by omega)) (by omega))
    have h2 : m < (swapIdx arr (m + 1) (rngStep σ % (m + 2))).length := by
      have := hswap.length_eq
      omega
    exact (ih _ (rngStep σ) h2).trans hswap

theorem permOfState_isPerm (σ : ℕ) (n : ℕ) : IsPermOf (permOfState σ n).1 n := by
  unfold IsPermOf permOfState
  cases n with
  | zero => simp
  | succ m =>
    have h : m < (List.range (m + 1)).length := by simp
    simpa using fyAux_perm m (List.range (m + 1)) σ h

/-! ### Threshold list lemmas -/

theorem edLE_refl (a : EuclDist) : edLE a a := le_refl a.sq

theorem edLE_trans {a b c : EuclDist} (h1 : edLE a b) (h2 : edLE b c) : edLE a c :=
  le_trans h1 h2

theorem rocThresholds_sorted (s : List EuclDist) :
    List.Sorted descRel (rocThresholds s) :=
  List.sorted_insertionSort descRel s.dedup

theorem rocThresholds_perm_dedup (s : List EuclDist) :
    List.Perm (rocThresholds s) s.dedup :=
  List.perm_insertionSort descRel s.dedup

theorem mem_rocThresholds {a : EuclDist} {s : List EuclDist} :
    a ∈ rocThresholds s ↔ a ∈ s := by
  rw [(rocThresholds_perm_dedup s).mem_iff, List.mem_dedup]

theorem rocThresholds_eq_of_perm {s1 s2 : List EuclDist} (h : List.Perm s1 s2) :
    rocThresholds s1 = rocThresholds s2 := by
  apply List.eq_of_perm_of_sorted _ (rocThresholds_sorted s1) (rocThresholds_sorted s2)
  exact (rocThresholds_perm_dedup s1).trans (h.dedup.trans (rocThresholds_perm_dedup s2).symm)

theorem rocThresholds_ne_nil {s : List EuclDist} (h : s ≠ []) :
    rocThresholds s ≠ [] := by
  intro hcon
  have h1 := (rocThresholds_perm_dedup s).length_eq
  rw [hcon] at h1
  exact h ((List.dedup_eq_nil s).mp (List.length_eq_zero.mp h1.symm))

theorem getLast?_mem_list {α : Type _} {l : List α} {m : α} (h : l.getLast? = some m) :
    m ∈ l := by
  rcases List.mem_getLast?_eq_getLast (show m ∈ l.getLast? from h) with ⟨hne, hm⟩
  rw [hm]
  exact List.getLast_mem hne

theorem sorted_getLast?_le : ∀ (l : List EuclDist), List.Sorted descRel l →
    ∀ (m : EuclDist), l.getLast? = some m → ∀ a ∈ l, edLE m a := by
  intro l
  induction l with
  | nil => intro _ m hm; simp at hm
  | cons b t ih =>
    intro hs m hm a ha
    rw [List.sorted_cons] at hs
    cases t with
    | nil =>
      simp only [List.getLast?_singleton, Option.some.injEq] at hm
      rcases List.mem_singleton.mp ha with hab
      rw [hab, ← hm]
      exact edLE_refl b
    | cons c t2 =>
      have hm2 : (c :: t2).getLast? = some m := by
        rwa [List.getLast?_cons_cons] at hm
      rcases List.mem_cons.mp ha with hab | hat
      · rw [hab]
        exact hs.1 m (getLast?_mem_list hm2)
      · exact ih hs.2 m hm2 a hat

/-! ### Counting lemmas for the ROC sweep -/

theorem countP_fst_zip {α β : Type _} (q : α → Bool) (y : List α) (s : List β)
    (h : y.length = s.length) :
    (y.zip s).countP (fun p => q p.1) = y.countP q := by
  have h1 : (y.zip s).map Prod.fst = y := List.map_fst_zip y s (le_of_eq h)
  conv_rhs => rw [← h1]
  rw [List.countP_map]
  rfl

theorem fpAt_le_negTotal (y : List Int) (s : List EuclDist) (t : EuclDist)
    (h : y.length = s.length) : fpAt (y.zip s) t ≤ negTotal y := by
  unfold fpAt negTotal
  calc (y.zip s).countP (fun p => !(p.1 == 1) && decide (edLE t p.2))
      ≤ (y.zip s).countP (fun p => !(p.1 == 1)) :=
        List.countP_mono_left (fun p _ hp => ((Bool.and_eq_true _ _) ▸ hp).1)
    _ = y.countP (fun a => !(a == 1)) := countP_fst_zip (fun a => !(a == 1)) y s h

theorem tpAt_le_posTotal (y : List Int) (s : List EuclDist) (t : EuclDist)
    (h : y.length = s.length) : tpAt (y.zip s) t ≤ posTotal y := by
  unfold tpAt posTotal
  calc (y.zip s).countP (fun p => p.1 == 1 && decide (edLE t p.2))
      ≤ (y.zip s).countP (fun p => p.1 == 1) :=
        List.countP_mono_left (fun p _ hp => ((Bool.and_eq_true _ _) ▸ hp).1)
    _ = y.countP (fun a => a == 1) := countP_fst_zip (fun a => a == 1) y s h

theorem fpAt_mono (pairs : List (Int × EuclDist)) {t1 t2 : EuclDist}
    (h : edLE t2 t1) : fpAt pairs t1 ≤ fpAt pairs t2 := by
  unfold fpAt
  apply List.countP_mono_left
  intro p _ hp
  rcases (Bool.and_eq_true _ _) ▸ hp with ⟨ha, hb⟩
  rw [Bool.and_eq_true]
  exact ⟨ha, decide_eq_true (edLE_trans h (of_decide_eq_true hb))⟩

theorem tpAt_mono (pairs : List (Int × EuclDist)) {t1 t2 : EuclDist}
    (h : edLE t2 t1) : tpAt pairs t1 ≤ tpAt pairs t2 := by
  unfold tpAt
  apply List.countP_mono_left
  intro p _ hp
  rcases (Bool.and_eq_true _ _) ▸ hp with ⟨ha, hb⟩
  rw [Bool.and_eq_true]
  exact ⟨ha, decide_eq_true (edLE_trans h (of_decide_eq_true hb))⟩

theorem ratio_nonneg (c n : ℕ) : 0 ≤ (c : ℚ) / (n : ℚ) :=
  div_nonneg (by positivity) (by positivity)

theorem ratio_le_one {c n : ℕ} (h : c ≤ n) : (c : ℚ) / (n : ℚ) ≤ 1 := by
  rcases Nat.eq_zero_or_pos n with h0 | hpos
  · rw [h0]
    simp [Nat.le_zero.mp (h0 ▸ h)]
  · rw [div_le_one (by exact_mod_cast hpos)]
    exact_mod_cast h

/-! ### Properties of the ROC curve -/

theorem rocCurve_length_eq (y : List Int) (s : List EuclDist) :
    (rocCurve y s).1.length = (rocCurve y s).2.length := by
  simp [rocCurve]

theorem rocCurve_fst_bounds (y : List Int) (s : List EuclDist)
    (h : y.length = s.length) : ∀ x ∈ (rocCurve y s).1, 0 ≤ x ∧ x ≤ 1 := by
  intro x hx
  simp only [rocCurve, List.mem_cons, List.mem_map] at hx
  rcases hx with h0 | ⟨t, _, ht⟩
  · rw [h0]
    norm_num
  · rw [← ht]
    exact ⟨ratio_nonneg _ _, ratio_le_one (fpAt_le_negTotal y s t h)⟩

theorem rocCurve_snd_bounds (y : List Int) (s : List EuclDist)
    (h : y.length = s.length) : ∀ x ∈ (rocCurve y s).2, 0 ≤ x ∧ x ≤ 1 := by
  intro x hx
  simp only [rocCurve, List.mem_cons, List.mem_map] at hx
  rcases hx with h0 | ⟨t, _, ht⟩
  · rw [h0]
    norm_num
  · rw [← ht]
    exact ⟨ratio_nonneg _ _, ratio_le_one (tpAt_le_posTotal y s t h)⟩

theorem rocCurve_fst_chain (y : List Int) (s : List EuclDist) :
    List.Chain' (fun a b => a ≤ b) (rocCurve y s).1 := by
  simp only [rocCurve]
  rw [List.chain'_cons']
  constructor
  · intro z hz
    rw [List.head?_map] at hz
    cases hh : (rocThresholds s).head? with
    | none => rw [hh] at hz; simp at hz
    | some t =>
      rw [hh] at hz
      simp only [Option.map_some', Option.mem_def, Option.some.injEq] at hz
      rw [← hz]
      exact ratio_nonneg _ _
  · apply List.Pairwise.chain'
    rw [List.pairwise_map]
    refine List.Pairwise.imp ?mono (rocThresholds_sorted s)
    intro a b hab
    exact div_le_div_of_nonneg_right (by exact_mod_cast fpAt_mono _ hab) (by positivity)

theorem rocCurve_snd_chain (y : List Int) (s : List EuclDist) :
    List.Chain' (fun a b => a ≤ b) (rocCurve y s).2 := by
  simp only [rocCurve]
  rw [List.chain'_cons']
  constructor
  · intro z hz
    rw [List.head?_map] at hz
    cases hh : (rocThresholds s).head? with
    | none => rw [hh] at hz; simp at hz
    | some t =>
      rw [hh] at hz
      simp only [Option.map_some', Option.mem_def, Option.some.injEq] at hz
      rw [← hz]
      exact ratio_nonneg _ _
  · apply List.Pairwise.chain'
    rw [List.pairwise_map]
    refine List.Pairwise.imp ?mono (rocThresholds_sorted s)
    intro a b hab
    exact div_le_div_of_nonneg_right (by exact_mod_cast tpAt_mono _ hab) (by positivity)

theorem rocCurve_fst_head (y : List Int) (s : List EuclDist) :
    (rocCurve y s).1.head? = some 0 := rfl

theorem rocCurve_snd_head (y : List Int) (s : List EuclDist) :
    (rocCurve y s).2.head? = some 0 := rfl

theorem rocCurve_fst_getLast (y : List Int) (s : List EuclDist)
    (hlen : y.length = s.length) (hs : s ≠ []) (hneg : negTotal y ≠ 0) :
    (rocCurve y s).1.getLast? = some 1 := by
  have hts : rocThresholds s ≠ [] := rocThresholds_ne_nil hs
  obtain ⟨m, hm⟩ : ∃ m, (rocThresholds s).getLast? = some m := by
    cases hgl : (rocThresholds s).getLast? with
    | none => exact absurd (List.getLast?_eq_none_iff.mp hgl) hts
    | some m => exact ⟨m, rfl⟩
  have hfull : fpAt (y.zip s) m = negTotal y := by
    unfold fpAt
    have hcg : ∀ p ∈ y.zip s,
        ((!(p.1 == 1) && decide (edLE m p.2)) = true) ↔ ((!(p.1 == 1)) = true) := by
      intro p hp
      have hmem : p.2 ∈ s := (List.of_mem_zip hp).2
      have hle : edLE m p.2 :=
        sorted_getLast?_le _ (rocThresholds_sorted s) m hm p.2 (mem_rocThresholds.mpr hmem)
      simp [hle]
    rw [List.countP_congr hcg]
    exact countP_fst_zip (fun a => !(a == 1)) y s hlen
  simp only [rocCurve]
  rw [List.getLast?_cons, List.getLast?_map, hm]
  simp only [Option.map_some', Option.getD_some, Option.some.injEq]
  rw [hfull]
  exact div_self (by exact_mod_cast hneg)

theorem rocCurve_snd_getLast (y : List Int) (s : List EuclDist)
    (hlen : y.length = s.length) (hs : s ≠ []) (hpos : posTotal y ≠ 0) :
    (rocCurve y s).2.getLast? = some 1 := by
  have hts : rocThresholds s ≠ [] := rocThresholds_ne_nil hs
  obtain ⟨m, hm⟩ : ∃ m, (rocThresholds s).getLast? = some m := by
    cases hgl : (rocThresholds s).getLast? with
    | none => exact absurd (List.getLast?_eq_none_iff.mp hgl) hts
    | some m => exact ⟨m, rfl⟩
  have hfull : tpAt (y.zip s) m = posTotal y := by
    unfold tpAt
    have hcg : ∀ p ∈ y.zip s,
        ((p.1 == 1 && decide (edLE m p.2)) = true) ↔ ((p.1 == 1) = true) := by
      intro p hp
      have hmem : p.2 ∈ s := (List.of_mem_zip hp).2
      have hle : edLE m p.2 :=
        sorted_getLast?_le _ (rocThresholds_sorted s) m hm p.2 (mem_rocThresholds.mpr hmem)
      simp [hle]
    rw [List.countP_congr hcg]
    exact countP_fst_zip (fun a => a == 1) y s hlen
  simp only [rocCurve]
  rw [List.getLast?_cons, List.getLast?_map, hm]
  simp only [Option.map_some', Option.getD_some, Option.some.injEq]
  rw [hfull]
  exact div_self (by exact_mod_cast hpos)

/-- The ROC curve depends on the labelled scores only through their
multiset: reordering the (label, score) pairs does not change it. -/
theorem rocCurve_eq_of_perm (y1 s1 y2 s2 : List _) (h1 : y1.length = s1.length)
    (h2 : y2.length = s2.length) (hp : List.Perm (y2.zip s2) (y1.zip s1)) :
    rocCurve y2 s2 = rocCurve y1 s1 := by
  have hs : List.Perm s2 s1 := by
    have h3 := hp.map Prod.snd
    rwa [List.map_snd_zip _ _ (le_of_eq h2.symm), List.map_snd_zip _ _ (le_of_eq h1.symm)] at h3
  have hy : List.Perm y2 y1 := by
    have h3 := hp.map Prod.fst
    rwa [List.map_fst_zip _ _ (le_of_eq h2), List.map_fst_zip _ _ (le_of_eq h1)] at h3
  have hts : rocThresholds s2 = rocThresholds s1 := rocThresholds_eq_of_perm hs
  have hpos : posTotal y2 = posTotal y1 := hy.countP_eq _
  have hneg : negTotal y2 = negTotal y1 := hy.countP_eq _
  have hfp : ∀ t, fpAt (y2.zip s2) t = fpAt (y1.zip s1) t := fun t => hp.countP_eq _
  have htp : ∀ t, tpAt (y2.zip s2) t = tpAt (y1.zip s1) t := fun t => hp.countP_eq _
  simp only [rocCurve, hts, hpos, hneg, hfp, htp]

/-- Negating every label swaps the roles of the two classes: the fpr
sequence of the negated problem is the tpr sequence of the original and
vice versa (labels range over {1, -1}). -/
theorem rocCurve_neg_swap (y1 s1 y2 s2 : List _) (h1 : y1.length = s1.length)
    (h2 : y2.length = s2.length)
    (hp : List.Perm (y2.zip s2) ((y1.zip s1).map (fun p => (-p.1, p.2))))
    (hr : ∀ a ∈ y1, a = 1 ∨ a = -1) :
    (rocCurve y2 s2).1 = (rocCurve y1 s1).2 ∧ (rocCurve y2 s2).2 = (rocCurve y1 s1).1 := by
  have hs : List.Perm s2 s1 := by
    have h3 := hp.map Prod.snd
    rw [List.map_snd_zip _ _ (le_of_eq h2.symm), List.map_map] at h3
    have he : (Prod.snd ∘ fun p : Int × EuclDist => (-p.1, p.2)) = Prod.snd := rfl
    rwa [he, List.map_snd_zip _ _ (le_of_eq h1.symm)] at h3
  have hts : rocThresholds s2 = rocThresholds s1 := rocThresholds_eq_of_perm hs
  have hpos : posTotal y2 = negTotal y1 := by
    unfold posTotal negTotal
    rw [← countP_fst_zip (fun a => a == 1) y2 s2 h2, hp.countP_eq, List.countP_map,
      ← countP_fst_zip (fun a => !(a == 1)) y1 s1 h1]
    apply List.countP_congr
    intro p hpm
    rcases hr p.1 ((List.of_mem_zip hpm).1) with hc | hc <;> simp [Function.comp, hc]
  have hneg : negTotal y2 = posTotal y1 := by
    unfold posTotal negTotal
    rw [← countP_fst_zip (fun a => !(a == 1)) y2 s2 h2, hp.countP_eq, List.countP_map,
      ← countP_fst_zip (fun a => a == 1) y1 s1 h1]
    apply List.countP_congr
    intro p hpm
    rcases hr p.1 ((List.of_mem_zip hpm).1) with hc | hc <;> simp [Function.comp, hc]
  have htp : ∀ t, tpAt (y2.zip s2) t = fpAt (y1.zip s1) t := by
    intro t
    unfold tpAt fpAt
    rw [hp.countP_eq, List.countP_map]
    apply List.countP_congr
    intro p hpm
    rcases hr p.1 ((List.of_mem_zip hpm).1) with hc | hc <;> simp [Function.comp, hc]
  have hfp : ∀ t, fpAt (y2.zip s2) t = tpAt (y1.zip s1) t := by
    intro t
    unfold tpAt fpAt
    rw [hp.countP_eq, List.countP_map]
    apply List.countP_congr
    intro p hpm
    rcases hr p.1 ((List.of_mem_zip hpm).1) with hc | hc <;> simp [Function.comp, hc]
  constructor <;> simp only [rocCurve, hts, hpos, hneg, htp, hfp]

/-! ### Trapezoidal integration lemmas -/

theorem trapArea_nonneg : ∀ (x y : List ℚ), List.Chain' (fun a b => a ≤ b) x →
    (∀ v ∈ y, 0 ≤ v) → 0 ≤ trapArea x y := by
  intro x
  induction x with
  | nil => intro y _ _; simp [trapArea]
  | cons x1 xs ih =>
    intro y hc hy
    cases xs with
    | nil => simp [trapArea]
    | cons x2 xs2 =>
      cases y with
      | nil => simp [trapArea]
      | cons y1 ys =>
        cases ys with
        | nil => simp [trapArea]
        | cons y2 ys2 =>
          have h12 : x1 ≤ x2 := (List.chain'_cons.mp hc).1
          have hc2 : List.Chain' (fun a b => a ≤ b) (x2 :: xs2) := (List.chain'_cons.mp hc).2
          have hy1 : 0 ≤ y1 := hy y1 (List.mem_cons_self _ _)
          have hy2 : 0 ≤ y2 := hy y2 (List.mem_cons_of_mem _ (List.mem_cons_self _ _))
          have hy3 : ∀ v ∈ y2 :: ys2, 0 ≤ v := fun v hv => hy v (List.mem_cons_of_mem _ hv)
          have ht := ih (y2 :: ys2) hc2 hy3
          show 0 ≤ (x2 - x1) * (y1 + y2) / 2 + trapArea (x2 :: xs2) (y2 :: ys2)
          have hterm : 0 ≤ (x2 - x1) * (y1 + y2) / 2 :=
            div_nonneg (mul_nonneg (sub_nonneg.mpr h12) (add_nonneg hy1 hy2)) (by norm_num)
          linarith

theorem trapArea_le : ∀ (x y : List ℚ), x.length = y.length →
    List.Chain' (fun a b => a ≤ b) x → (∀ v ∈ y, v ≤ 1) →
    trapArea x y ≤ (x.getLast?.getD 0) - (x.head?.getD 0) := by
  intro x
  induction x with
  | nil => intro y _ _ _; simp [trapArea]
  | cons x1 xs ih =>
    intro y hlen hc hy
    cases xs with
    | nil =>
      cases y with
      | nil => simp at hlen
      | cons y1 ys =>
        cases ys with
        | nil => simp [trapArea]
        | cons y2 ys2 => simp at hlen
    | cons x2 xs2 =>
      cases y with
      | nil => simp at hlen
      | cons y1 ys =>
        cases ys with
        | nil => simp at hlen
        | cons y2 ys2 =>
          have h12 : x1 ≤ x2 := (List.chain'_cons.mp hc).1
          have hc2 : List.Chain' (fun a b => a ≤ b) (x2 :: xs2) := (List.chain'_cons.mp hc).2
          have hy1 : y1 ≤ 1 := hy y1 (List.mem_cons_self _ _)
          have hy2 : y2 ≤ 1 := hy y2 (List.mem_cons_of_mem _ (List.mem_cons_self _ _))
          have hy3 : ∀ v ∈ y2 :: ys2, v ≤ 1 := fun v hv => hy v (List.mem_cons_of_mem _ hv)
          have hlen2 : (x2 :: xs2).length = (y2 :: ys2).length := by
            simp at hlen ⊢
            omega
          have ht := ih (y2 :: ys2) hlen2 hc2 hy3
          show (x2 - x1) * (y1 + y2) / 2 + trapArea (x2 :: xs2) (y2 :: ys2) ≤ _
          rw [List.getLast?_cons_cons]
          have hterm : (x2 - x1) * (y1 + y2) / 2 ≤ x2 - x1 := by
            have hb : (x2 - x1) * (y1 + y2) ≤ (x2 - x1) * 2 :=
              mul_le_mul_of_nonneg_left (by linarith) (sub_nonneg.mpr h12)
            linarith
          have hhead : ((x2 :: xs2).head?.getD 0) = x2 := rfl
          rw [hhead] at ht
          simp only [List.head?_cons, Option.getD_some]
          linarith

theorem trapArea_add_swap : ∀ (x y : List ℚ), x.length = y.length →
    trapArea x y + trapArea y x =
      (x.getLast?.getD 0) * (y.getLast?.getD 0) - (x.head?.getD 0) * (y.head?.getD 0) := by
  intro x
  induction x with
  | nil =>
    intro y hlen
    have : y = [] := List.length_eq_zero.mp (by simpa using hlen.symm)
    rw [this]
    simp [trapArea]
  | cons x1 xs ih =>
    intro y hlen
    cases xs with
    | nil =>
      cases y with
      | nil => simp at hlen
      | cons y1 ys =>
        cases ys with
        | nil => simp [trapArea]
        | cons y2 ys2 => simp at hlen
    | cons x2 xs2 =>
      cases y with
      | nil => simp at hlen
      | cons y1 ys =>
        cases ys with
        | nil => simp at hlen
        | cons y2 ys2 =>
          have hlen2 : (x2 :: xs2).length = (y2 :: ys2).length := by
            simp at hlen ⊢
            omega
          have ht := ih (y2 :: ys2) hlen2
          show (x2 - x1) * (y1 + y2) / 2 + trapArea (x2 :: xs2) (y2 :: ys2) +
              ((y2 - y1) * (x1 + x2) / 2 + trapArea (y2 :: ys2) (x2 :: xs2)) = _
          rw [List.getLast?_cons_cons, List.getLast?_cons_cons]
          simp only [List.head?_cons, Option.getD_some]
          have hhx : ((x2 :: xs2).head?.getD 0) = x2 := rfl
          have hhy : ((y2 :: ys2).head?.getD 0) = y2 := rfl
          rw [hhx, hhy] at ht
          linear_combination ht

/-! ### The clean path of the scorer -/

theorem refPairs_length (train test : Table) :
    (refPairs train test).length = train.rows.length + test.rows.length := by
  simp [refPairs]

theorem shuffledPairs_perm (train test : Table) (π : List ℕ)
    (hπ : IsPermOf π (train.rows.length + test.rows.length)) :
    List.Perm (shuffledPairs train test π) (refPairs train test) := by
  unfold shuffledPairs
  exact perm_map_getD _ _ π ((refPairs_length train test).symm ▸ hπ)

theorem refData_length (train test : Table) (π : List ℕ) :
    (refData train test π).length = π.length := by
  simp [refData, shuffledPairs]

theorem refLabels_length (train test : Table) (π : List ℕ) :
    (refLabels train test π).length = π.length := by
  simp [refLabels, shuffledPairs]

theorem getD_map {α β : Type _} (l : List α) (g : α → β) (i : ℕ) (d : β) (d2 : α)
    (h : i < l.length) : (l.map g).getD i d = g (l.getD i d2) := by
  have h2 : i < (l.map g).length := by simpa using h
  rw [getD_eq_getElem _ _ h2, getD_eq_getElem _ _ h, List.getElem_map]

theorem clean_pairs (train test : Table) :
    (((train.rows ++ test.rows).map (fun r => r.map some)).zip
      (List.replicate train.rows.length (-1 : Int) ++ List.replicate test.rows.length 1))
    = (refPairs train test).map (fun p => (p.1.map some, p.2)) := by
  rw [List.map_append]
  rw [List.zip_append (by simp)]
  rw [zip_map_replicate, zip_map_replicate]
  unfold refPairs
  rw [List.map_append, List.map_map, List.map_map]
  rfl

theorem createShuffledData_clean (train test : Table) (π : List ℕ)
    (hc : train.cols = test.cols)
    (hπ : IsPermOf π (train.rows.length + test.rows.length)) :
    createShuffledData train test π =
      (train.cols, (refData train test π).map (fun r => r.map some),
        refLabels train test π) := by
  simp only [createShuffledData, concatTables, if_pos hc]
  rw [clean_pairs]
  have hmap : π.map (fun i =>
        ((refPairs train test).map (fun p => (p.1.map some, p.2))).getD i ([], 0)) =
      (shuffledPairs train test π).map (fun p => (p.1.map some, p.2)) := by
    unfold shuffledPairs
    rw [List.map_map]
    apply List.map_congr_left
    intro i hi
    have hlt : i < (refPairs train test).length := by
      rw [refPairs_length]
      exact mem_lt_of_isPermOf hπ hi
    exact getD_map _ _ i ([], 0) ([], 0) hlt
  rw [hmap]
  unfold refData refLabels
  rw [List.map_map, List.map_map, List.map_map]
  rfl

theorem scoreTables_clean (train test synth : Table) (π : List ℕ)
    (hv : ValidInput train test synth)
    (hπ : IsPermOf π (train.rows.length + test.rows.length)) :
    scoreTables train test synth π =
      some (scoreOutput (refLabels train test π)
        (nearestNeighbors (refData train test π) synth.rows)) := by
  obtain ⟨hc, hsc, htr, hte, hsy, _, _, _⟩ := hv
  unfold scoreTables
  rw [createShuffledData_clean train test π hc hπ]
  unfold computeAuc
  have hsynth : ¬ (synth.rows.isEmpty = true) := by
    simpa [List.isEmpty_iff] using hsy
  rw [if_neg hsynth]
  have hn1 : 0 < train.rows.length := List.length_pos.mpr htr
  have hlen : (refData train test π).length = train.rows.length + test.rows.length := by
    rw [refData_length, isPermOf_length hπ]
  have hdata : ¬ (((refData train test π).map (fun r => r.map some)).isEmpty = true) := by
    simp only [List.isEmpty_iff]
    intro hcon
    have h2 : (refData train test π).length = 0 := by
      simpa using congrArg List.length hcon
    rw [hlen] at h2
    omega
  rw [if_neg hdata]
  have hnan : ¬ ((((refData train test π).map (fun r => r.map some)).any
      (fun r => r.any (fun c => c.isNone))) = true) := by
    intro hcon
    rcases List.any_eq_true.mp hcon with ⟨r, hr, hrt⟩
    rcases List.mem_map.mp hr with ⟨r0, _, hre⟩
    rw [← hre] at hrt
    rcases List.any_eq_true.mp hrt with ⟨c, hc, hct⟩
    rcases List.mem_map.mp hc with ⟨c0, _, hce⟩
    rw [← hce] at hct
    simp at hct
  rw [if_neg hnan]
  have hwidth : train.cols.length = synth.cols.length := by rw [hsc]
  rw [if_pos hwidth]
  have hstrip : ((refData train test π).map (fun r => r.map some)).map
      (fun r => r.map (fun c => c.getD 0)) = refData train test π := by
    rw [List.map_map]
    have heach : ∀ r : Row, (r.map some).map (fun c => c.getD 0) = r := by
      intro r
      rw [List.map_map]
      have hid : ∀ c ∈ r, ((fun c : OCell => c.getD 0) ∘ some) c = id c := fun c _ => rfl
      rw [List.map_congr_left hid, List.map_id]
    calc (refData train test π).map ((fun r => r.map (fun c => c.getD 0)) ∘ (fun r => r.map some))
        = (refData train test π).map id := by
          apply List.map_congr_left
          intro r _
          exact heach r
      _ = refData train test π := List.map_id _
  rw [hstrip]

theorem refPairs_map_snd (train test : Table) :
    (refPairs train test).map Prod.snd =
      List.replicate train.rows.length (-1 : Int) ++ List.replicate test.rows.length 1 := by
  unfold refPairs
  rw [List.map_append, List.map_map, List.map_map]
  rw [show (Prod.snd ∘ fun r : Row => (r, (-1 : Int))) = fun _ => (-1 : Int) from rfl]
  rw [show (Prod.snd ∘ fun r : Row => (r, (1 : Int))) = fun _ => (1 : Int) from rfl]
  rw [List.map_const', List.map_const']

theorem refLabels_perm (train test : Table) (π : List ℕ)
    (hπ : IsPermOf π (train.rows.length + test.rows.length)) :
    List.Perm (refLabels train test π)
      (List.replicate train.rows.length (-1 : Int) ++ List.replicate test.rows.length 1) := by
  unfold refLabels
  have h := (shuffledPairs_perm train test π hπ).map Prod.snd
  rwa [refPairs_map_snd] at h

theorem posTotal_refLabels (train test : Table) (π : List ℕ)
    (hπ : IsPermOf π (train.rows.length + test.rows.length)) :
    posTotal (refLabels train test π) = test.rows.length := by
  unfold posTotal
  rw [(refLabels_perm train test π hπ).countP_eq]
  rw [List.countP_append, List.countP_replicate, List.countP_replicate]
  norm_num

theorem negTotal_refLabels (train test : Table) (π : List ℕ)
    (hπ : IsPermOf π (train.rows.length + test.rows.length)) :
    negTotal (refLabels train test π) = train.rows.length := by
  unfold negTotal
  rw [(refLabels_perm train test π hπ).countP_eq]
  rw [List.countP_append, List.countP_replicate, List.countP_replicate]
  norm_num

theorem refLabels_range (train test : Table) (π : List ℕ)
    (hπ : IsPermOf π (train.rows.length + test.rows.length)) :
    ∀ a ∈ refLabels train test π, a = 1 ∨ a = -1 := by
  intro a ha
  have h := (refLabels_perm train test π hπ).mem_iff.mp ha
  rcases List.mem_append.mp h with h2 | h2
  · exact Or.inr (List.eq_of_mem_replicate h2)
  · exact Or.inl (List.eq_of_mem_replicate h2)

/-! ### Nearest-neighbour distances -/

theorem edMin_le_left (a b : EuclDist) : edLE (edMin a b) a := by
  unfold edMin edLE
  split
  · exact le_refl _
  · exact le_of_not_le (by assumption)

theorem edMin_le_right (a b : EuclDist) : edLE (edMin a b) b := by
  unfold edMin edLE
  split
  · assumption
  · exact le_refl _

theorem foldl_edMin_le : ∀ (l : List EuclDist) (a : EuclDist),
    edLE (l.foldl edMin a) a ∧ ∀ b ∈ l, edLE (l.foldl edMin a) b := by
  intro l
  induction l with
  | nil =>
    intro a
    exact ⟨edLE_refl a, by simp⟩
  | cons c t ih =>
    intro a
    rw [List.foldl_cons]
    refine ⟨edLE_trans (ih (edMin a c)).1 (edMin_le_left a c), ?rest⟩
    intro b hb
    rcases List.mem_cons.mp hb with hbc | hbt
    · rw [hbc]
      exact edLE_trans (ih (edMin a c)).1 (edMin_le_right a c)
    · exact (ih (edMin a c)).2 b hbt

theorem foldl_edMin_mem : ∀ (l : List EuclDist) (a : EuclDist),
    l.foldl edMin a = a ∨ (l.foldl edMin a) ∈ l := by
  intro l
  induction l with
  | nil => intro a; exact Or.inl rfl
  | cons c t ih =>
    intro a
    rw [List.foldl_cons]
    rcases ih (edMin a c) with h | h
    · rw [h]
      unfold edMin
      split
      · exact Or.inl rfl
      · exact Or.inr (List.mem_cons_self _ _)
    · exact Or.inr (List.mem_cons_of_mem _ h)

/-- The nearest-neighbour distance is attained at some corpus row and is a
lower bound on the distance to every corpus row. -/
theorem nnDist_spec (s : List Row) (q : Row) (hs : s ≠ []) :
    (∃ r ∈ s, nnDist s q = euclDist q r) ∧
      ∀ r ∈ s, edLE (nnDist s q) (euclDist q r) := by
  cases s with
  | nil => exact absurd rfl hs
  | cons r0 rs =>
    have hdef : nnDist (r0 :: rs) q =
        (rs.map (euclDist q)).foldl edMin (euclDist q r0) := by
      show rs.foldl (fun acc r2 => edMin acc (euclDist q r2)) (euclDist q r0) = _
      rw [List.foldl_map]
    rw [hdef]
    constructor
    · rcases foldl_edMin_mem (rs.map (euclDist q)) (euclDist q r0) with h | h
      · exact ⟨r0, List.mem_cons_self _ _, h⟩
      · rcases List.mem_map.mp h with ⟨r, hr, he⟩
        exact ⟨r, List.mem_cons_of_mem _ hr, he.symm⟩
    · intro r hr
      rcases List.mem_cons.mp hr with h | h
      · exact h ▸ (foldl_edMin_le (rs.map (euclDist q)) (euclDist q r0)).1
      · exact (foldl_edMin_le _ _).2 (euclDist q r) (List.mem_map_of_mem _ h)

/-! ### Axis titling -/

theorem titleAxes_none (names : List String) : ∀ (idxs : List ℕ),
    (∃ i ∈ idxs, names.get? i = none) → titleAxes names idxs = none := by
  intro idxs
  induction idxs with
  | nil =>
    intro h
    rcases h with ⟨i, hi, _⟩
    simp at hi
  | cons j rest ih =>
    intro h
    rcases h with ⟨i, hi, hn⟩
    unfold titleAxes
    rcases List.mem_cons.mp hi with he | he
    · rw [he] at hn
      rw [hn]
    · have h2 := ih ⟨i, he, hn⟩
      rw [h2]
      cases names.get? j <;> rfl

/-! ### The claims -/

/-- C1: for every valid input, the scorer computes for each row of the
shuffled reference table the Euclidean distance to its single nearest
neighbour among the synthetic rows — one scalar per reference record, in
the order of the shuffled reference table — and exactly these distances
are the classification scores handed to the ROC computation. -/
theorem claim_C1 (train test synth : Table) (π : List ℕ)
    (hv : ValidInput train test synth)
    (hπ : IsPermOf π (train.rows.length + test.rows.length)) :
    (nearestNeighbors (refData train test π) synth.rows).length
        = (refData train test π).length ∧
    (∀ i, i < (refData train test π).length →
      (∃ r ∈ synth.rows,
          (nearestNeighbors (refData train test π) synth.rows).getD i (EuclDist.mk 0)
            = euclDist ((refData train test π).getD i []) r) ∧
        ∀ r ∈ synth.rows,
          edLE ((nearestNeighbors (refData train test π) synth.rows).getD i (EuclDist.mk 0))
            (euclDist ((refData train test π).getD i []) r)) ∧
    scoreTables train test synth π =
      some (scoreOutput (refLabels train test π)
        (nearestNeighbors (refData train test π) synth.rows)) := by
  obtain ⟨hc, hsc, htr, hte, hsy, hr1, hr2, hr3⟩ := hv
  refine ⟨by simp [nearestNeighbors], ?mid, ?out⟩
  · intro i hi
    have hgd : (nearestNeighbors (refData train test π) synth.rows).getD i (EuclDist.mk 0)
        = nnDist synth.rows ((refData train test π).getD i []) := by
      unfold nearestNeighbors
      exact getD_map _ _ i (EuclDist.mk 0) [] hi
    rw [hgd]
    have hspec := nnDist_spec synth.rows ((refData train test π).getD i []) hsy
    exact ⟨hspec.1, hspec.2⟩
  · exact scoreTables_clean train test synth π ⟨hc, hsc, htr, hte, hsy, hr1, hr2, hr3⟩ hπ

/-- C2: every train row is labelled -1 and every test row +1 before the
reference table is shuffled, and after the uniform permutation every
shuffled row still carries exactly its original label: the shuffled
(row, label) pairs are a permutation of the labelled rows built before the
shuffle. -/
theorem claim_C2 (train test : Table) (π : List ℕ)
    (hc : train.cols = test.cols)
    (hπ : IsPermOf π (train.rows.length + test.rows.length)) :
    List.Perm
      (((createShuffledData train test π).2.1).zip
        ((createShuffledData train test π).2.2))
      ((train.rows.map (fun r => (r.map some, (-1 : Int)))) ++
        (test.rows.map (fun r => (r.map some, (1 : Int))))) := by
  rw [createShuffledData_clean train test π hc hπ]
  have h1 : ((refData train test π).map (fun r => r.map some)).zip (refLabels train test π)
      = (shuffledPairs train test π).map (fun p => (p.1.map some, p.2)) := by
    unfold refData refLabels
    rw [List.map_map, List.zip_map']
    rfl
  rw [h1]
  have h2 := (shuffledPairs_perm train test π hπ).map
    (fun p : Row × Int => (p.1.map some, p.2))
  have h3 : (refPairs train test).map (fun p : Row × Int => (p.1.map some, p.2)) =
      (train.rows.map (fun r => (r.map some, (-1 : Int)))) ++
        (test.rows.map (fun r => (r.map some, (1 : Int)))) := by
    unfold refPairs
    rw [List.map_append, List.map_map, List.map_map]
    rfl
  rw [h3] at h2
  exact h2

/-- C3: for every valid input, the returned fpr and tpr sequences have
equal length, are non-decreasing with every value in [0, 1], and start at
(0, 0) and end at (1, 1). -/
theorem claim_C3 (train test synth : Table) (π : List ℕ) (fpr tpr : List ℚ) (auc : ℚ)
    (hv : ValidInput train test synth)
    (hπ : IsPermOf π (train.rows.length + test.rows.length))
    (hout : scoreTables train test synth π = some (fpr, tpr, auc)) :
    fpr.length = tpr.length ∧
    List.Chain' (fun a b => a ≤ b) fpr ∧ List.Chain' (fun a b => a ≤ b) tpr ∧
    (∀ x ∈ fpr, 0 ≤ x ∧ x ≤ 1) ∧ (∀ x ∈ tpr, 0 ≤ x ∧ x ≤ 1) ∧
    fpr.head? = some 0 ∧ tpr.head? = some 0 ∧
    fpr.getLast? = some 1 ∧ tpr.getLast? = some 1 := by
  rw [scoreTables_clean train test synth π hv hπ] at hout
  have heq := Option.some.inj hout
  obtain ⟨hc, hsc, htr, hte, hsy, _, _, _⟩ := hv
  have hlen : (refLabels train test π).length
      = (nearestNeighbors (refData train test π) synth.rows).length := by
    rw [refLabels_length]
    unfold nearestNeighbors
    rw [List.length_map, refData_length]
  have hn : 0 < π.length := by
    rw [isPermOf_length hπ]
    have := List.length_pos.mpr htr
    omega
  have hSne : nearestNeighbors (refData train test π) synth.rows ≠ [] := by
    intro hcon
    have h2 := congrArg List.length hcon
    unfold nearestNeighbors at h2
    rw [List.length_map, refData_length] at h2
    simp only [List.length_nil] at h2
    omega
  have hposT : posTotal (refLabels train test π) ≠ 0 := by
    rw [posTotal_refLabels train test π hπ]
    have := List.length_pos.mpr hte
    omega
  have hnegT : negTotal (refLabels train test π) ≠ 0 := by
    rw [negTotal_refLabels train test π hπ]
    have := List.length_pos.mpr htr
    omega
  have hfpr : fpr = (rocCurve (refLabels train test π)
      (nearestNeighbors (refData train test π) synth.rows)).1 := by
    have h2 := congrArg (fun p : List ℚ × List ℚ × ℚ => p.1) heq
    simpa [scoreOutput] using h2.symm
  have htpr : tpr = (rocCurve (refLabels train test π)
      (nearestNeighbors (refData train test π) synth.rows)).2 := by
    have h2 := congrArg (fun p : List ℚ × List ℚ × ℚ => p.2.1) heq
    simpa [scoreOutput] using h2.symm
  rw [hfpr, htpr]
  exact ⟨rocCurve_length_eq _ _, rocCurve_fst_chain _ _, rocCurve_snd_chain _ _,
    rocCurve_fst_bounds _ _ hlen, rocCurve_snd_bounds _ _ hlen,
    rocCurve_fst_head _ _, rocCurve_snd_head _ _,
    rocCurve_fst_getLast _ _ hlen hSne hnegT, rocCurve_snd_getLast _ _ hlen hSne hposT⟩

/-- C4: for every valid input, the returned auc is exactly the trapezoidal
area under the (fpr, tpr) sequence, and it lies in [0, 1]. -/
theorem claim_C4 (train test synth : Table) (π : List ℕ) (fpr tpr : List ℚ) (auc : ℚ)
    (hv : ValidInput train test synth)
    (hπ : IsPermOf π (train.rows.length + test.rows.length))
    (hout : scoreTables train test synth π = some (fpr, tpr, auc)) :
    auc = aucOf fpr tpr ∧ 0 ≤ auc ∧ auc ≤ 1 := by
  rw [scoreTables_clean train test synth π hv hπ] at hout
  have heq := Option.some.inj hout
  obtain ⟨hc, hsc, htr, hte, hsy, _, _, _⟩ := hv
  have hlen : (refLabels train test π).length
      = (nearestNeighbors (refData train test π) synth.rows).length := by
    rw [refLabels_length]
    unfold nearestNeighbors
    rw [List.length_map, refData_length]
  have hn : 0 < π.length := by
    rw [isPermOf_length hπ]
    have := List.length_pos.mpr htr
    omega
  have hSne : nearestNeighbors (refData train test π) synth.rows ≠ [] := by
    intro hcon
    have h2 := congrArg List.length hcon
    unfold nearestNeighbors at h2
    rw [List.length_map, refData_length] at h2
    simp only [List.length_nil] at h2
    omega
  have hposT : posTotal (refLabels train test π) ≠ 0 := by
    rw [posTotal_refLabels train test π hπ]
    have := List.length_pos.mpr hte
    omega
  have hnegT : negTotal (refLabels train test π) ≠ 0 := by
    rw [negTotal_refLabels train test π hπ]
    have := List.length_pos.mpr htr
    omega
  have hfpr : fpr = (rocCurve (refLabels train test π)
      (nearestNeighbors (refData train test π) synth.rows)).1 := by
    have h2 := congrArg (fun p : List ℚ × List ℚ × ℚ => p.1) heq
    simpa [scoreOutput] using h2.symm
  have htpr : tpr = (rocCurve (refLabels train test π)
      (nearestNeighbors (refData train test π) synth.rows)).2 := by
    have h2 := congrArg (fun p : List ℚ × List ℚ × ℚ => p.2.1) heq
    simpa [scoreOutput] using h2.symm
  have hauc : auc = aucOf (rocCurve (refLabels train test π)
        (nearestNeighbors (refData train test π) synth.rows)).1
      (rocCurve (refLabels train test π)
        (nearestNeighbors (refData train test π) synth.rows)).2 := by
    have h2 := congrArg (fun p : List ℚ × List ℚ × ℚ => p.2.2) heq
    simpa [scoreOutput] using h2.symm
  refine ⟨by rw [hauc, hfpr, htpr], ?lo, ?hi⟩
  · rw [hauc]
    unfold aucOf
    apply trapArea_nonneg _ _ (rocCurve_fst_chain _ _)
    intro v hv2
    exact (rocCurve_snd_bounds _ _ hlen v hv2).1
  · rw [hauc]
    unfold aucOf
    have hle := trapArea_le
      (rocCurve (refLabels train test π)
        (nearestNeighbors (refData train test π) synth.rows)).1
      (rocCurve (refLabels train test π)
        (nearestNeighbors (refData train test π) synth.rows)).2
      (rocCurve_length_eq _ _) (rocCurve_fst_chain _ _)
      (fun v hv2 => (rocCurve_snd_bounds _ _ hlen v hv2).2)
    rw [rocCurve_fst_getLast _ _ hlen hSne hnegT, rocCurve_fst_head] at hle
    simpa using hle

/-- Witness for C1 at a concrete one-column input. -/
theorem claim_C1_witness :
    (nearestNeighbors
        (refData (Table.mk ["a"] [[(0 : ℚ)]]) (Table.mk ["a"] [[(1 : ℚ)]]) [0, 1])
        (Table.mk ["a"] [[(0 : ℚ)]]).rows).length
      = (refData (Table.mk ["a"] [[(0 : ℚ)]]) (Table.mk ["a"] [[(1 : ℚ)]]) [0, 1]).length ∧
    (∀ i, i < (refData (Table.mk ["a"] [[(0 : ℚ)]]) (Table.mk ["a"] [[(1 : ℚ)]]) [0, 1]).length →
      (∃ r ∈ (Table.mk ["a"] [[(0 : ℚ)]]).rows,
          (nearestNeighbors
              (refData (Table.mk ["a"] [[(0 : ℚ)]]) (Table.mk ["a"] [[(1 : ℚ)]]) [0, 1])
              (Table.mk ["a"] [[(0 : ℚ)]]).rows).getD i (EuclDist.mk 0)
            = euclDist
                ((refData (Table.mk ["a"] [[(0 : ℚ)]]) (Table.mk ["a"] [[(1 : ℚ)]]) [0, 1]).getD i []) r) ∧
        ∀ r ∈ (Table.mk ["a"] [[(0 : ℚ)]]).rows,
          edLE ((nearestNeighbors
              (refData (Table.mk ["a"] [[(0 : ℚ)]]) (Table.mk ["a"] [[(1 : ℚ)]]) [0, 1])
              (Table.mk ["a"] [[(0 : ℚ)]]).rows).getD i (EuclDist.mk 0))
            (euclDist
              ((refData (Table.mk ["a"] [[(0 : ℚ)]]) (Table.mk ["a"] [[(1 : ℚ)]]) [0, 1]).getD i []) r)) ∧
    scoreTables (Table.mk ["a"] [[(0 : ℚ)]]) (Table.mk ["a"] [[(1 : ℚ)]])
        (Table.mk ["a"] [[(0 : ℚ)]]) [0, 1] =
      some (scoreOutput
        (refLabels (Table.mk ["a"] [[(0 : ℚ)]]) (Table.mk ["a"] [[(1 : ℚ)]]) [0, 1])
        (nearestNeighbors
          (refData (Table.mk ["a"] [[(0 : ℚ)]]) (Table.mk ["a"] [[(1 : ℚ)]]) [0, 1])
          (Table.mk ["a"] [[(0 : ℚ)]]).rows)) :=
  claim_C1 (Table.mk ["a"] [[(0 : ℚ)]]) (Table.mk ["a"] [[(1 : ℚ)]])
    (Table.mk ["a"] [[(0 : ℚ)]]) [0, 1] (by decide) (by decide)

/-- Witness for C2 at a concrete input with the swap permutation. -/
theorem claim_C2_witness :
    List.Perm
      (((createShuffledData (Table.mk ["a"] [[(0 : ℚ)]]) (Table.mk ["a"] [[(1 : ℚ)]]) [1, 0]).2.1).zip
        ((createShuffledData (Table.mk ["a"] [[(0 : ℚ)]]) (Table.mk ["a"] [[(1 : ℚ)]]) [1, 0]).2.2))
      (((Table.mk ["a"] [[(0 : ℚ)]]).rows.map (fun r => (r.map some, (-1 : Int)))) ++
        ((Table.mk ["a"] [[(1 : ℚ)]]).rows.map (fun r => (r.map some, (1 : Int))))) :=
  claim_C2 (Table.mk ["a"] [[(0 : ℚ)]]) (Table.mk ["a"] [[(1 : ℚ)]]) [1, 0]
    (by decide) (by decide)

/-- Witness for C3: the concrete curve ([0,0,1], [0,1,1]) with auc 1. -/
theorem claim_C3_witness :
    ([(0 : ℚ), 0, 1] : List ℚ).length = ([(0 : ℚ), 1, 1] : List ℚ).length ∧
    List.Chain' (fun a b => a ≤ b) [(0 : ℚ), 0, 1] ∧
    List.Chain' (fun a b => a ≤ b) [(0 : ℚ), 1, 1] ∧
    (∀ x ∈ [(0 : ℚ), 0, 1], 0 ≤ x ∧ x ≤ 1) ∧
    (∀ x ∈ [(0 : ℚ), 1, 1], 0 ≤ x ∧ x ≤ 1) ∧
    ([(0 : ℚ), 0, 1] : List ℚ).head? = some 0 ∧
    ([(0 : ℚ), 1, 1] : List ℚ).head? = some 0 ∧
    ([(0 : ℚ), 0, 1] : List ℚ).getLast? = some 1 ∧
    ([(0 : ℚ), 1, 1] : List ℚ).getLast? = some 1 :=
  claim_C3 (Table.mk ["a"] [[(0 : ℚ)]]) (Table.mk ["a"] [[(1 : ℚ)]])
    (Table.mk ["a"] [[(0 : ℚ)]]) [0, 1] [0, 0, 1] [0, 1, 1] 1
    (by decide) (by decide) (by with_unfolding_all decide)

/-- Witness for C4: the concrete auc 1 equals the trapezoid area and lies
in [0, 1]. -/
theorem claim_C4_witness :
    (1 : ℚ) = aucOf [0, 0, 1] [0, 1, 1] ∧ (0 : ℚ) ≤ 1 ∧ (1 : ℚ) ≤ 1 :=
  claim_C4 (Table.mk ["a"] [[(0 : ℚ)]]) (Table.mk ["a"] [[(1 : ℚ)]])
    (Table.mk ["a"] [[(0 : ℚ)]]) [0, 1] [0, 0, 1] [0, 1, 1] 1
    (by decide) (by decide) (by with_unfolding_all decide)

/-- C5 counterexample: with train/test on columns ["a","b"] and a synthetic
table on ["a","c"] — the column sets differ — the scoring operation runs to
completion instead of failing: there is no SchemaMismatch check anywhere in
the code, and a synthetic frame with the right column count slips through
the only library-side check (the dimension comparison). -/
theorem claim_C5_counterexample :
    ("c" ∈ (Table.mk ["a", "c"] [[(0 : ℚ), 0]]).cols ∧
      "c" ∉ (Table.mk ["a", "b"] [[(0 : ℚ), 0]]).cols) ∧
    (scoreTables (Table.mk ["a", "b"] [[(0 : ℚ), 0]]) (Table.mk ["a", "b"] [[(1 : ℚ), 1]])
        (Table.mk ["a", "c"] [[(0 : ℚ), 0]]) [0, 1]).isSome = true := by
  constructor
  · exact ⟨by decide, by decide⟩
  · with_unfolding_all decide

/-- C5 amended: the scorer performs no schema or emptiness validation of
its own.  When train and test share a schema, the combined reference table
is non-empty and the synthetic table merely has the same number of
columns, scoring completes even when the column name sets differ and even
when one reference table is empty.  The only emptiness that aborts the
run is an empty synthetic table, rejected inside the nearest-neighbour
library call — no SchemaMismatch and no EmptyInputError exists. -/
theorem claim_C5_amended (train test synth synth2 : Table) (π : List ℕ)
    (hc : train.cols = test.cols)
    (hne : train.rows.length + test.rows.length ≠ 0)
    (hπ : IsPermOf π (train.rows.length + test.rows.length))
    (hsy : synth.rows ≠ [])
    (hw : train.cols.length = synth.cols.length)
    (hsy2 : synth2.rows = []) :
    (scoreTables train test synth π).isSome = true ∧
    scoreTables train test synth2 π = none := by
  constructor
  · unfold scoreTables
    rw [createShuffledData_clean train test π hc hπ]
    unfold computeAuc
    have hsynth : ¬ (synth.rows.isEmpty = true) := by
      simpa [List.isEmpty_iff] using hsy
    rw [if_neg hsynth]
    have hlen : (refData train test π).length = train.rows.length + test.rows.length := by
      rw [refData_length, isPermOf_length hπ]
    have hdata : ¬ (((refData train test π).map (fun r => r.map some)).isEmpty = true) := by
      simp only [List.isEmpty_iff]
      intro hcon
      have h2 : (refData train test π).length = 0 := by
        simpa using congrArg List.length hcon
      rw [hlen] at h2
      omega
    rw [if_neg hdata]
    have hnan : ¬ ((((refData train test π).map (fun r => r.map some)).any
        (fun r => r.any (fun c => c.isNone))) = true) := by
      intro hcon
      rcases List.any_eq_true.mp hcon with ⟨r, hr, hrt⟩
      rcases List.mem_map.mp hr with ⟨r0, _, hre⟩
      rw [← hre] at hrt
      rcases List.any_eq_true.mp hrt with ⟨c, hcm, hct⟩
      rcases List.mem_map.mp hcm with ⟨c0, _, hce⟩
      rw [← hce] at hct
      simp at hct
    rw [if_neg hnan]
    rw [if_pos hw]
    rfl
  · unfold scoreTables computeAuc
    rw [hsy2]
    rfl

/-- Witness for C5's amended claim: scoring succeeds although the
synthetic column set {a, c} differs from the reference column set {a, b},
and fails for an empty synthetic table. -/
theorem claim_C5_witness :
    (scoreTables (Table.mk ["a", "b"] [[(0 : ℚ), 0]]) (Table.mk ["a", "b"] [[(1 : ℚ), 1]])
        (Table.mk ["a", "c"] [[(0 : ℚ), 0]]) [0, 1]).isSome = true ∧
    scoreTables (Table.mk ["a", "b"] [[(0 : ℚ), 0]]) (Table.mk ["a", "b"] [[(1 : ℚ), 1]])
        (Table.mk ["a", "b"] []) [0, 1] = none :=
  claim_C5_amended (Table.mk ["a", "b"] [[(0 : ℚ), 0]]) (Table.mk ["a", "b"] [[(1 : ℚ), 1]])
    (Table.mk ["a", "c"] [[(0 : ℚ), 0]]) (Table.mk ["a", "b"] []) [0, 1]
    (by decide) (by decide) (by decide) (by decide) (by decide) rfl

/-- C6: under a fixed seed the scorer is deterministic: seeding installs
the generator state `npSeed seed`; the seeded run factors through the pure
permutation `permOfState` of that state — so the output is a function of
the inputs and the seed alone; that index list is a true permutation of
the row indices; and two runs started from the same seed return identical
outputs. -/
theorem claim_C6 (train test synth : Table) (seed : ℕ) (σ1 σ2 : ℕ)
    (h1 : σ1 = npSeed seed) (h2 : σ2 = npSeed seed) :
    scoreSeeded train test synth σ1
      = (scoreTables train test synth
          (permOfState (npSeed seed) (train.rows.length + test.rows.length)).1,
         (permOfState (npSeed seed) (train.rows.length + test.rows.length)).2) ∧
    IsPermOf (permOfState (npSeed seed) (train.rows.length + test.rows.length)).1
      (train.rows.length + test.rows.length) ∧
    (scoreSeeded train test synth σ1).1 = (scoreSeeded train test synth σ2).1 := by
  subst h1
  subst h2
  exact ⟨rfl, permOfState_isPerm _ _, rfl⟩

/-- Witness for C6 at a concrete input and seed 0. -/
theorem claim_C6_witness :
    scoreSeeded (Table.mk ["a"] [[(0 : ℚ)]]) (Table.mk ["a"] [[(1 : ℚ)]])
        (Table.mk ["a"] [[(0 : ℚ)]]) (npSeed 0)
      = (scoreTables (Table.mk ["a"] [[(0 : ℚ)]]) (Table.mk ["a"] [[(1 : ℚ)]])
          (Table.mk ["a"] [[(0 : ℚ)]])
          (permOfState (npSeed 0)
            ((Table.mk ["a"] [[(0 : ℚ)]]).rows.length + (Table.mk ["a"] [[(1 : ℚ)]]).rows.length)).1,
         (permOfState (npSeed 0)
           ((Table.mk ["a"] [[(0 : ℚ)]]).rows.length + (Table.mk ["a"] [[(1 : ℚ)]]).rows.length)).2) ∧
    IsPermOf (permOfState (npSeed 0)
        ((Table.mk ["a"] [[(0 : ℚ)]]).rows.length + (Table.mk ["a"] [[(1 : ℚ)]]).rows.length)).1
      ((Table.mk ["a"] [[(0 : ℚ)]]).rows.length + (Table.mk ["a"] [[(1 : ℚ)]]).rows.length) ∧
    (scoreSeeded (Table.mk ["a"] [[(0 : ℚ)]]) (Table.mk ["a"] [[(1 : ℚ)]])
        (Table.mk ["a"] [[(0 : ℚ)]]) (npSeed 0)).1
      = (scoreSeeded (Table.mk ["a"] [[(0 : ℚ)]]) (Table.mk ["a"] [[(1 : ℚ)]])
          (Table.mk ["a"] [[(0 : ℚ)]]) (npSeed 0)).1 :=
  claim_C6 (Table.mk ["a"] [[(0 : ℚ)]]) (Table.mk ["a"] [[(1 : ℚ)]])
    (Table.mk ["a"] [[(0 : ℚ)]]) 0 (npSeed 0) (npSeed 0) rfl rfl

/-- The shuffled (label, score) pairs are a permutation of the label/score
pairs computed directly from the unshuffled labelled rows. -/
theorem zip_labels_scores (train test : Table) (π : List ℕ) (s : List Row)
    (hπ : IsPermOf π (train.rows.length + test.rows.length)) :
    List.Perm ((refLabels train test π).zip (nearestNeighbors (refData train test π) s))
      ((refPairs train test).map (fun p => (p.2, nnDist s p.1))) := by
  have hzip : (refLabels train test π).zip (nearestNeighbors (refData train test π) s)
      = (shuffledPairs train test π).map (fun p => (p.2, nnDist s p.1)) := by
    unfold refLabels refData nearestNeighbors
    rw [List.map_map, List.zip_map']
    rfl
  rw [hzip]
  exact (shuffledPairs_perm train test π hπ).map _

/-- Swapping the roles of train and test negates every label of the
labelled reference rows, up to reordering. -/
theorem refPairs_swap_perm (train test : Table) :
    List.Perm (refPairs test train)
      ((refPairs train test).map (fun p => (p.1, -p.2))) := by
  unfold refPairs
  rw [List.map_append, List.map_map, List.map_map]
  have e1 : ((fun p : Row × Int => (p.1, -p.2)) ∘ fun r => (r, (-1 : Int)))
      = fun r : Row => (r, (1 : Int)) := by
    funext r
    show (r, -(-1 : Int)) = (r, 1)
    norm_num
  have e2 : ((fun p : Row × Int => (p.1, -p.2)) ∘ fun r => (r, (1 : Int)))
      = fun r : Row => (r, (-1 : Int)) := by
    funext r
    rfl
  rw [e1, e2]
  exact List.perm_append_comm

/-- The labelled scores of the swapped run are, up to reordering, the
labelled scores of the original run with every label negated. -/
theorem zip_swap_perm (train test synth : Table) (π1 π2 : List ℕ)
    (hπ1 : IsPermOf π1 (train.rows.length + test.rows.length))
    (hπ2 : IsPermOf π2 (test.rows.length + train.rows.length)) :
    List.Perm
      ((refLabels test train π2).zip (nearestNeighbors (refData test train π2) synth.rows))
      (((refLabels train test π1).zip
        (nearestNeighbors (refData train test π1) synth.rows)).map (fun p => (-p.1, p.2))) := by
  have h2 := zip_labels_scores test train π2 synth.rows hπ2
  have h1m := (zip_labels_scores train test π1 synth.rows hπ1).map
    (fun p : Int × EuclDist => (-p.1, p.2))
  rw [List.map_map] at h1m
  have hsw := (refPairs_swap_perm train test).map
    (fun p : Row × Int => (p.2, nnDist synth.rows p.1))
  rw [List.map_map] at hsw
  have hcomp : ((fun p : Int × EuclDist => (-p.1, p.2)) ∘
        (fun p : Row × Int => (p.2, nnDist synth.rows p.1)))
      = ((fun p : Row × Int => (p.2, nnDist synth.rows p.1)) ∘
        (fun p : Row × Int => (p.1, -p.2))) := by
    funext p
    rfl
  refine h2.trans (hsw.trans ?last)
  rw [← hcomp]
  exact h1m.symm

/-- C7: swapping the train and test inputs (synthetic input fixed, any
randomization on either side) inverts the label polarity, so the resulting
ROC curve is the complement of the original — fpr and tpr sequences
swapped — and the resulting auc is 1 minus the original auc. -/
theorem claim_C7 (train test synth : Table) (π1 π2 : List ℕ)
    (f t : List ℚ) (a : ℚ) (f2 t2 : List ℚ) (a2 : ℚ)
    (hv : ValidInput train test synth)
    (hπ1 : IsPermOf π1 (train.rows.length + test.rows.length))
    (hπ2 : IsPermOf π2 (test.rows.length + train.rows.length))
    (hout1 : scoreTables train test synth π1 = some (f, t, a))
    (hout2 : scoreTables test train synth π2 = some (f2, t2, a2)) :
    f2 = t ∧ t2 = f ∧ a2 = 1 - a := by
  obtain ⟨hc, hsc, htr, hte, hsy, hr1, hr2, hr3⟩ := hv
  have hv1 : ValidInput train test synth := ⟨hc, hsc, htr, hte, hsy, hr1, hr2, hr3⟩
  have hv2 : ValidInput test train synth :=
    ⟨hc.symm, hsc.trans hc, hte, htr, hsy, hr2, hr1, hr3⟩
  rw [scoreTables_clean train test synth π1 hv1 hπ1] at hout1
  rw [scoreTables_clean test train synth π2 hv2 hπ2] at hout2
  have heq1 := Option.some.inj hout1
  have heq2 := Option.some.inj hout2
  have hlen1 : (refLabels train test π1).length
      = (nearestNeighbors (refData train test π1) synth.rows).length := by
    rw [refLabels_length]
    unfold nearestNeighbors
    rw [List.length_map, refData_length]
  have hlen2 : (refLabels test train π2).length
      = (nearestNeighbors (refData test train π2) synth.rows).length := by
    rw [refLabels_length]
    unfold nearestNeighbors
    rw [List.length_map, refData_length]
  have hperm := zip_swap_perm train test synth π1 π2 hπ1 hπ2
  have hrange : ∀ x ∈ refLabels train test π1, x = 1 ∨ x = -1 :=
    refLabels_range train test π1 hπ1
  have hswap := rocCurve_neg_swap (refLabels train test π1)
    (nearestNeighbors (refData train test π1) synth.rows)
    (refLabels test train π2)
    (nearestNeighbors (refData test train π2) synth.rows)
    hlen1 hlen2 hperm hrange
  have hf : f = (rocCurve (refLabels train test π1)
      (nearestNeighbors (refData train test π1) synth.rows)).1 := by
    have h2 := congrArg (fun p : List ℚ × List ℚ × ℚ => p.1) heq1
    simpa [scoreOutput] using h2.symm
  have ht : t = (rocCurve (refLabels train test π1)
      (nearestNeighbors (refData train test π1) synth.rows)).2 := by
    have h2 := congrArg (fun p : List ℚ × List ℚ × ℚ => p.2.1) heq1
    simpa [scoreOutput] using h2.symm
  have ha : a = aucOf (rocCurve (refLabels train test π1)
        (nearestNeighbors (refData train test π1) synth.rows)).1
      (rocCurve (refLabels train test π1)
        (nearestNeighbors (refData train test π1) synth.rows)).2 := by
    have h2 := congrArg (fun p : List ℚ × List ℚ × ℚ => p.2.2) heq1
    simpa [scoreOutput] using h2.symm
  have hf2 : f2 = (rocCurve (refLabels test train π2)
      (nearestNeighbors (refData test train π2) synth.rows)).1 := by
    have h2 := congrArg (fun p : List ℚ × List ℚ × ℚ => p.1) heq2
    simpa [scoreOutput] using h2.symm
  have ht2 : t2 = (rocCurve (refLabels test train π2)
      (nearestNeighbors (refData test train π2) synth.rows)).2 := by
    have h2 := congrArg (fun p : List ℚ × List ℚ × ℚ => p.2.1) heq2
    simpa [scoreOutput] using h2.symm
  have ha2 : a2 = aucOf (rocCurve (refLabels test train π2)
        (nearestNeighbors (refData test train π2) synth.rows)).1
      (rocCurve (refLabels test train π2)
        (nearestNeighbors (refData test train π2) synth.rows)).2 := by
    have h2 := congrArg (fun p : List ℚ × List ℚ × ℚ => p.2.2) heq2
    simpa [scoreOutput] using h2.symm
  have hn1 : 0 < π1.length := by
    rw [isPermOf_length hπ1]
    have := List.length_pos.mpr htr
    omega
  have hSne1 : nearestNeighbors (refData train test π1) synth.rows ≠ [] := by
    intro hcon
    have h2 := congrArg List.length hcon
    unfold nearestNeighbors at h2
    rw [List.length_map, refData_length] at h2
    simp only [List.length_nil] at h2
    omega
  have hposT1 : posTotal (refLabels train test π1) ≠ 0 := by
    rw [posTotal_refLabels train test π1 hπ1]
    have := List.length_pos.mpr hte
    omega
  have hnegT1 : negTotal (refLabels train test π1) ≠ 0 := by
    rw [negTotal_refLabels train test π1 hπ1]
    have := List.length_pos.mpr htr
    omega
  refine ⟨by rw [hf2, ht, hswap.1], by rw [ht2, hf, hswap.2], ?auc⟩
  rw [ha2, ha, hswap.1, hswap.2]
  unfold aucOf
  have hadd := trapArea_add_swap
    (rocCurve (refLabels train test π1)
      (nearestNeighbors (refData train test π1) synth.rows)).1
    (rocCurve (refLabels train test π1)
      (nearestNeighbors (refData train test π1) synth.rows)).2
    (rocCurve_length_eq _ _)
  rw [rocCurve_fst_getLast _ _ hlen1 hSne1 hnegT1,
    rocCurve_snd_getLast _ _ hlen1 hSne1 hposT1,
    rocCurve_fst_head, rocCurve_snd_head] at hadd
  simp only [Option.getD_some] at hadd
  linarith

/-- Witness for C7 at a concrete input: both runs evaluated, with the
curves swapped and auc complemented (1 and 0). -/
theorem claim_C7_witness :
    ([(0 : ℚ), 1, 1] : List ℚ) = [0, 1, 1] ∧ ([(0 : ℚ), 0, 1] : List ℚ) = [0, 0, 1] ∧
    (0 : ℚ) = 1 - 1 :=
  claim_C7 (Table.mk ["a"] [[(0 : ℚ)]]) (Table.mk ["a"] [[(1 : ℚ)]])
    (Table.mk ["a"] [[(0 : ℚ)]]) [0, 1] [0, 1]
    [0, 0, 1] [0, 1, 1] 1 [0, 1, 1] [0, 0, 1] 0
    (by decide) (by decide) (by decide)
    (by with_unfolding_all decide) (by with_unfolding_all decide)

/-- C8 counterexample: `combined_tsne` with one synthetic dataset performs
a second fit, on the synthetic dataset itself (dataset 1), so the
projection is not fit exactly once on the real data and is refit per
synthetic dataset. -/
theorem claim_C8_counterexample :
    ProjCall.fit 1 ∈ (combinedTsne 1 []).1 ∧
    (combinedTsne 1 []).1.countP ProjCall.isFit ≠ 1 := by
  exact ⟨by decide, by decide⟩

/-- C8 amended: `combined_pca` fits the projection exactly once — on the
real dataset — and only applies the fitted transform to synthetic
datasets, but `combined_tsne` fits anew on every synthetic dataset (k + 1
fits for k synthetic datasets), since t-SNE has no out-of-sample
transform. -/
theorem claim_C8_amended (k : ℕ) (names : List String) :
    ((combinedPca k names).1.countP ProjCall.isFit = 1 ∧
      ∀ d, ProjCall.fit d ∈ (combinedPca k names).1 → d = 0) ∧
    ((combinedTsne k names).1.countP ProjCall.isFit = k + 1 ∧
      ∀ i, i < k → ProjCall.fit (i + 1) ∈ (combinedTsne k names).1) := by
  have hcount : ∀ m : ℕ, ((List.range m).flatMap
      (fun i => [ProjCall.fit (i + 1), ProjCall.transform (i + 1)])).countP
        ProjCall.isFit = m := by
    intro m
    induction m with
    | zero => rfl
    | succ n ihn =>
      rw [List.range_succ, List.flatMap_append, List.countP_append, ihn]
      rfl
  refine ⟨⟨?pc, ?pm⟩, ?tc, ?tm⟩
  · show (ProjCall.fit 0 :: ProjCall.transform 0 ::
        (List.range k).map (fun i => ProjCall.transform (i + 1))).countP ProjCall.isFit = 1
    rw [List.countP_cons, List.countP_cons, List.countP_map]
    have hz : (List.range k).countP
        (ProjCall.isFit ∘ fun i => ProjCall.transform (i + 1)) = 0 := by
      rw [List.countP_eq_zero]
      intro i _
      simp [Function.comp, ProjCall.isFit]
    rw [hz]
    rfl
  · intro d hd
    simp only [combinedPca, List.mem_cons, List.mem_map] at hd
    rcases hd with h | h | ⟨i, _, h⟩
    · simpa using h
    · exact ProjCall.noConfusion h
    · exact ProjCall.noConfusion h
  · show (ProjCall.fit 0 :: ProjCall.transform 0 ::
        (List.range k).flatMap
          (fun i => [ProjCall.fit (i + 1), ProjCall.transform (i + 1)])).countP
        ProjCall.isFit = k + 1
    rw [List.countP_cons, List.countP_cons, hcount k]
    rfl
  · intro i hi
    simp only [combinedTsne, List.mem_cons, List.mem_flatMap]
    right
    right
    exact ⟨i, List.mem_range.mpr hi, by simp⟩

/-- C9 counterexample: one invocation of the scorer maps the process
global generator state 0 to a different state — every call reads and
advances process-global mutable state (the numpy generator that
`sklearn.utils.shuffle` draws from), so invocations are not free of shared
mutable state. -/
theorem claim_C9_counterexample :
    (scoreSeeded (Table.mk ["a"] [[(0 : ℚ)]]) (Table.mk ["a"] [[(1 : ℚ)]])
        (Table.mk ["a"] [[(0 : ℚ)]]) 0).2 ≠ 0 := by
  decide

theorem perm_any_eq {α : Type _} {l1 l2 : List α} (h : List.Perm l1 l2) (p : α → Bool) :
    l1.any p = l2.any p := by
  cases h2 : l2.any p
  · rw [List.any_eq_false] at h2 ⊢
    intro x hx
    exact h2 x (h.mem_iff.mp hx)
  · rw [List.any_eq_true] at h2 ⊢
    rcases h2 with ⟨x, hx, hp⟩
    exact ⟨x, h.mem_iff.mpr hx, hp⟩

theorem zip_map_swap {α β γ : Type _} (g : α → γ) : ∀ (d : List α) (y : List β),
    y.zip (d.map g) = (d.zip y).map (fun p => (p.2, g p.1)) := by
  intro d
  induction d with
  | nil => intro y; cases y <;> rfl
  | cons a tl ih =>
    intro y
    cases y with
    | nil => rfl
    | cons b ys => simp [ih]

theorem concatTables_length (t1 t2 : Table) :
    (concatTables t1 t2).2.length = t1.rows.length + t2.rows.length := by
  unfold concatTables
  split <;> simp

theorem createShuffledData_zip (train test : Table) (π : List ℕ) :
    ((createShuffledData train test π).2.1).zip ((createShuffledData train test π).2.2)
      = π.map (fun i => (((concatTables train test).2).zip
          (List.replicate train.rows.length (-1 : Int) ++
            List.replicate test.rows.length 1)).getD i ([], 0)) := by
  simp only [createShuffledData]
  rw [List.zip_map']
  have heta : (fun a : List OCell × Int => (a.1, a.2)) = id := rfl
  rw [heta, List.map_id]

/-- `computeAuc` depends on the data/label rows only through their
multiset: every check and every downstream quantity is invariant under a
joint reordering of rows and labels. -/
theorem computeAuc_perm (synth : Table) (cols : List String)
    (d1 d2 : List (List OCell)) (y1 y2 : List Int)
    (hp : List.Perm (d1.zip y1) (d2.zip y2))
    (hl1 : y1.length = d1.length) (hl2 : y2.length = d2.length) :
    computeAuc synth cols d1 y1 = computeAuc synth cols d2 y2 := by
  have hd : List.Perm d1 d2 := by
    have h3 := hp.map Prod.fst
    rwa [List.map_fst_zip _ _ (le_of_eq hl1.symm),
      List.map_fst_zip _ _ (le_of_eq hl2.symm)] at h3
  have hemp : d1.isEmpty = d2.isEmpty := by
    have hlen12 := hd.length_eq
    rcases d1 with _ | ⟨a, tl⟩ <;> rcases d2 with _ | ⟨b, u⟩ <;> simp at hlen12 ⊢
  have hany : (d1.any (fun r => r.any (fun c => c.isNone)))
      = (d2.any (fun r => r.any (fun c => c.isNone))) := perm_any_eq hd _
  unfold computeAuc
  rw [hemp, hany]
  by_cases hs : synth.rows.isEmpty = true
  · rw [if_pos hs, if_pos hs]
  · rw [if_neg hs, if_neg hs]
    by_cases he2 : d2.isEmpty = true
    · rw [if_pos he2, if_pos he2]
    · rw [if_neg he2, if_neg he2]
      by_cases ha2 : (d2.any fun r => r.any fun c => c.isNone) = true
      · rw [if_pos ha2, if_pos ha2]
      · rw [if_neg ha2, if_neg ha2]
        by_cases hcw : cols.length = synth.cols.length
        · rw [if_pos hcw, if_pos hcw]
          have hzip1 : y1.zip (nearestNeighbors
                (d1.map (fun r => r.map (fun c => c.getD 0))) synth.rows)
              = (d1.zip y1).map (fun p =>
                  (p.2, nnDist synth.rows (p.1.map (fun c => c.getD 0)))) := by
            unfold nearestNeighbors
            rw [List.map_map]
            exact zip_map_swap _ d1 y1
          have hzip2 : y2.zip (nearestNeighbors
                (d2.map (fun r => r.map (fun c => c.getD 0))) synth.rows)
              = (d2.zip y2).map (fun p =>
                  (p.2, nnDist synth.rows (p.1.map (fun c => c.getD 0)))) := by
            unfold nearestNeighbors
            rw [List.map_map]
            exact zip_map_swap _ d2 y2
          have hpz : List.Perm
              (y2.zip (nearestNeighbors
                (d2.map (fun r => r.map (fun c => c.getD 0))) synth.rows))
              (y1.zip (nearestNeighbors
                (d1.map (fun r => r.map (fun c => c.getD 0))) synth.rows)) := by
            rw [hzip1, hzip2]
            exact (hp.map _).symm
          have hlen1 : y1.length = (nearestNeighbors
              (d1.map (fun r => r.map (fun c => c.getD 0))) synth.rows).length := by
            unfold nearestNeighbors
            simp [hl1]
          have hlen2 : y2.length = (nearestNeighbors
              (d2.map (fun r => r.map (fun c => c.getD 0))) synth.rows).length := by
            unfold nearestNeighbors
            simp [hl2]
          have hroc := rocCurve_eq_of_perm y1 _ y2 _ hlen1 hlen2 hpz
          unfold scoreOutput
          rw [hroc]
        · rw [if_neg hcw, if_neg hcw]

/-- The scorer output is the same for any two true permutations of the
reference rows: the shuffle never influences the numeric result. -/
theorem scoreTables_perm_indep (train test synth : Table) (π1 π2 : List ℕ)
    (h1 : IsPermOf π1 (train.rows.length + test.rows.length))
    (h2 : IsPermOf π2 (train.rows.length + test.rows.length)) :
    scoreTables train test synth π1 = scoreTables train test synth π2 := by
  unfold scoreTables
  have hplen : (((concatTables train test).2).zip
      (List.replicate train.rows.length (-1 : Int) ++
        List.replicate test.rows.length 1)).length
      = train.rows.length + test.rows.length := by
    rw [List.length_zip, concatTables_length]
    simp
  have hperm1 := perm_map_getD (((concatTables train test).2).zip
      (List.replicate train.rows.length (-1 : Int) ++
        List.replicate test.rows.length 1)) ([], 0) π1 (by rw [hplen]; exact h1)
  have hperm2 := perm_map_getD (((concatTables train test).2).zip
      (List.replicate train.rows.length (-1 : Int) ++
        List.replicate test.rows.length 1)) ([], 0) π2 (by rw [hplen]; exact h2)
  apply computeAuc_perm
  · rw [createShuffledData_zip, createShuffledData_zip]
    exact hperm1.trans hperm2.symm
  · simp [createShuffledData]
  · simp [createShuffledData]

/-- C9 amended: every invocation reads and advances the process-global
generator state (see the counterexample), but the numeric output is
independent of that state: any two invocations on the same inputs return
the same (fpr, tpr, auc) from any two starting states, because the
shuffle only reorders rows and the whole downstream computation is
invariant under reordering. -/
theorem claim_C9_amended (train test synth : Table) (σ1 σ2 : ℕ) :
    (scoreSeeded train test synth σ1).1 = (scoreSeeded train test synth σ2).1 := by
  show scoreTables train test synth
      (permOfState σ1 (train.rows.length + test.rows.length)).1
    = scoreTables train test synth
      (permOfState σ2 (train.rows.length + test.rows.length)).1
  exact scoreTables_perm_indep train test synth _ _
    (permOfState_isPerm σ1 _) (permOfState_isPerm σ2 _)

/-- C10: both `combined_pca` and `combined_tsne` title all 6 axes of their
fixed 2x3 grid from `names`, so whenever `names` has fewer than 6 entries
the titling loop fails with an out-of-range index error — even when the
list of synthetic datasets is shorter than 6; `names` must supply one
title per axis, not one per synthetic dataset. -/
theorem claim_C10 (k : ℕ) (names : List String) (h : names.length < 6) :
    (combinedPca k names).2 = none ∧ (combinedTsne k names).2 = none := by
  have hset : setTitles names = none := by
    apply titleAxes_none
    refine ⟨5, by decide, ?noneIdx⟩
    rw [List.get?_eq_none]
    omega
  exact ⟨hset, hset⟩

/-- Witness for C10: two synthetic datasets but a single title make both
plotting routines fail. -/
theorem claim_C10_witness :
    (combinedPca 2 ["a"]).2 = none ∧ (combinedTsne 2 ["a"]).2 = none :=
  claim_C10 2 ["a"] (by decide)
